import Mathlib

set_option autoImplicit false
set_option maxRecDepth 8000

/-!
Verification development for the vimiv mode/command/status core.

The definitions below are a shallow embedding of the Python sources:
`vimiv/api/modes.py`, `vimiv/commands/runners.py`, `vimiv/api/status.py`,
`vimiv/imutils/immanipulate.py` and `vimiv/utils/__init__.py`.
Python strings are modelled as Lean `String` (with `List Char` as the
working representation), dictionaries keyed by a finite type as functions
updated with `Function.update`, and raised exceptions as `Option`/explicit
outcome values.
-/

/-! ## Mode registry (vimiv/api/modes.py) -/

/-- The six fixed modes, in creation order (`GLOBAL`, `IMAGE`, `LIBRARY`,
`THUMBNAIL`, `COMMAND`, `MANIPULATE`).  Identity comparison of the Python
objects becomes equality of this enumeration. -/
inductive Mode where
  | global
  | image
  | library
  | thumbnail
  | command
  | manipulate
deriving DecidableEq

/-- The mutable registry state: for each mode its `active` flag, its `_last`
mode and its `last_fallback` mode.  Widgets and Qt signals carry no registry
state and are omitted. -/
structure ModesState where
  active : Mode → Bool
  last : Mode → Mode
  lastFallback : Mode → Mode

/-- The module level list `ALL`, in creation order. -/
def ALL : List Mode :=
  [Mode.global, Mode.image, Mode.library, Mode.thumbnail, Mode.command, Mode.manipulate]

/-- `current()`: the first active mode in `ALL`; `none` models the `NoMode`
exception raised when no mode is active. -/
def current (s : ModesState) : Option Mode :=
  ALL.find? fun m => s.active m

/-- `_set_last` as dispatched on the class of `self`: `_CommandMode` stores
any mode except itself, `_MainMode` (every other mode) stores any mode that
is neither `COMMAND` nor `MANIPULATE`. -/
def setLast (s : ModesState) (self mode : Mode) : ModesState :=
  if self = Mode.command then
    if mode ≠ self then { s with last := Function.update s.last self mode } else s
  else
    if mode ≠ Mode.command ∧ mode ≠ Mode.manipulate then
      { s with last := Function.update s.last self mode }
    else s

/-- `Mode.reset_last`: set `_last` back to `last_fallback`. -/
def resetLast (s : ModesState) (self : Mode) : ModesState :=
  { s with last := Function.update s.last self (s.lastFallback self) }

/-- Body of `Mode.enter` once `current()` returned `lastMode`: stay if we are
already in `self`, otherwise deactivate `lastMode`, store it through the
`last` setter of `self` and activate `self`. -/
def enterBody (s : ModesState) (lastMode self : Mode) : ModesState :=
  if lastMode = self then s
  else
    let s1 := { s with active := Function.update s.active lastMode false }
    let s2 := setLast s1 self lastMode
    { s2 with active := Function.update s2.active self true }

/-- `Mode.enter`; `none` models the `NoMode` exception escaping from
`current()`. -/
def enter (self : Mode) (s : ModesState) : Option ModesState :=
  (current s).map fun lastMode => enterBody s lastMode self

/-- `Mode.leave`: enter the stored last mode, then reset the last mode of
`self.last` (re-read after entering) to its fallback. -/
def leave (self : Mode) (s : ModesState) : Option ModesState :=
  (enter (s.last self) s).map fun s1 => resetLast s1 (s1.last self)

/-- `Mode.toggle`: widget visibility is external input, so it is a parameter;
leave when visible, enter otherwise. -/
def toggle (self : Mode) (visible : Bool) (s : ModesState) : Option ModesState :=
  if visible then leave self s else enter self s

/-- One call on the mode registry. -/
inductive ModeOp where
  | enter (m : Mode)
  | leave (m : Mode)
  | toggle (m : Mode) (visible : Bool)

def modeStep : ModeOp → ModesState → Option ModesState
  | ModeOp.enter m, s => enter m s
  | ModeOp.leave m, s => leave m s
  | ModeOp.toggle m v, s => toggle m v s

def runModes : List ModeOp → ModesState → Option ModesState
  | [], s => some s
  | op :: ops, s => (modeStep op s).bind (runModes ops)

/-- `_init()`: image mode active with last and fallback library; every other
mode inactive with last and fallback image. -/
def initModes : ModesState :=
  { active := fun m => decide (m = Mode.image)
    last := fun m => if m = Mode.image then Mode.library else Mode.image
    lastFallback := fun m => if m = Mode.image then Mode.library else Mode.image }

/-! ### Helper lemmas about the mode registry -/

theorem setLast_active (s : ModesState) (a b : Mode) : (setLast s a b).active = s.active := by
  unfold setLast
  split <;> split <;> rfl

theorem setLast_lastFallback (s : ModesState) (a b : Mode) :
    (setLast s a b).lastFallback = s.lastFallback := by
  unfold setLast
  split <;> split <;> rfl

theorem setLast_last_other (s : ModesState) (a b : Mode) {x : Mode} (hx : x ≠ a) :
    (setLast s a b).last x = s.last x := by
  unfold setLast
  split <;> split <;> simp [Function.update_noteq hx]

theorem resetLast_active (s : ModesState) (a : Mode) : (resetLast s a).active = s.active := rfl

theorem resetLast_lastFallback (s : ModesState) (a : Mode) :
    (resetLast s a).lastFallback = s.lastFallback := rfl

theorem enterBody_active (s : ModesState) (c m : Mode) :
    (enterBody s c m).active =
      if c = m then s.active
      else Function.update (Function.update s.active c false) m true := by
  unfold enterBody
  split
  · rfl
  · simp [setLast_active]

theorem enterBody_lastFallback (s : ModesState) (c m : Mode) :
    (enterBody s c m).lastFallback = s.lastFallback := by
  unfold enterBody
  split
  · rfl
  · simp [setLast_lastFallback]

theorem enterBody_last_other (s : ModesState) (c m : Mode) {x : Mode} (hx : x ≠ m) :
    (enterBody s c m).last x = s.last x := by
  unfold enterBody
  split
  · rfl
  · exact setLast_last_other _ m c hx

/-- Exactly mode `c` is active in `s`. -/
def OnlyActive (c : Mode) (s : ModesState) : Prop :=
  ∀ m, s.active m = true ↔ m = c

theorem onlyActive_current {s : ModesState} {c : Mode} (h : OnlyActive c s) :
    current s = some c := by
  have hval : ∀ m, s.active m = decide (m = c) := by
    intro m
    by_cases hm : m = c
    · simp [hm, (h c).mpr rfl]
    · have hf : s.active m = false := by
        cases hb : s.active m
        · rfl
        · exact absurd ((h m).mp hb) hm
      simp [hm, hf]
  show ALL.find? (fun m => s.active m) = some c
  rw [show (fun m => s.active m) = (fun m => decide (m = c)) from funext hval]
  cases c <;> decide

theorem onlyActive_enterBody {s : ModesState} {c : Mode} (h : OnlyActive c s) (m : Mode) :
    OnlyActive m (enterBody s c m) := by
  intro x
  rw [show (enterBody s c m).active x =
      (if c = m then s.active else Function.update (Function.update s.active c false) m true) x
    from congrFun (enterBody_active s c m) x]
  by_cases hcm : c = m
  · subst hcm
    simpa using h x
  · rw [if_neg hcm]
    by_cases hxm : x = m
    · subst hxm
      simp [Function.update_same]
    · rw [Function.update_noteq hxm]
      by_cases hxc : x = c
      · subst hxc
        simp [Function.update_same, hxm]
      · rw [Function.update_noteq hxc]
        exact iff_of_false (fun ht => hxc ((h x).mp ht)) hxm

theorem enter_eq {s : ModesState} {c : Mode} (m : Mode) (hc : current s = some c) :
    enter m s = some (enterBody s c m) := by
  simp [enter, hc]

theorem onlyActive_resetLast {t : ModesState} {c : Mode} (a : Mode) (h : OnlyActive c t) :
    OnlyActive c (resetLast t a) := h

/-- Every single registry call succeeds from a state with exactly one active
mode and yields a state with exactly one active mode. -/
theorem modeStep_only {s : ModesState} {c : Mode} (op : ModeOp) (h : OnlyActive c s) :
    ∃ s1 c1, modeStep op s = some s1 ∧ OnlyActive c1 s1 := by
  have hc := onlyActive_current h
  cases op with
  | enter m =>
      exact ⟨enterBody s c m, m, enter_eq m hc, onlyActive_enterBody h m⟩
  | leave m =>
      refine ⟨resetLast (enterBody s c (s.last m)) ((enterBody s c (s.last m)).last m),
        s.last m, ?_, ?_⟩
      · simp [leave, modeStep, enter_eq (s.last m) hc]
      · exact onlyActive_resetLast _ (onlyActive_enterBody h (s.last m))
  | toggle m v =>
      cases v with
      | true =>
          refine ⟨resetLast (enterBody s c (s.last m)) ((enterBody s c (s.last m)).last m),
            s.last m, ?_, ?_⟩
          · simp [toggle, leave, modeStep, enter_eq (s.last m) hc]
          · exact onlyActive_resetLast _ (onlyActive_enterBody h (s.last m))
      | false =>
          exact ⟨enterBody s c m, m, by simp [toggle, modeStep, enter_eq m hc],
            onlyActive_enterBody h m⟩

theorem onlyActive_initModes : OnlyActive Mode.image initModes := by
  intro m
  cases m <;> simp [initModes]

/-- C1: Mode exclusivity.  Starting from the initial state (image mode
active), every finite sequence of enter/leave/toggle calls succeeds and
leaves exactly one mode with `active = true`. -/
theorem mode_exclusivity (ops : List ModeOp) :
    ∃ s, runModes ops initModes = some s ∧ ∃! m : Mode, s.active m = true := by
  suffices h : ∀ s0 c, OnlyActive c s0 →
      ∃ s, runModes ops s0 = some s ∧ ∃ c1, OnlyActive c1 s by
    obtain ⟨s, hs, c1, hc1⟩ := h initModes Mode.image onlyActive_initModes
    exact ⟨s, hs, c1, (hc1 c1).mpr rfl, fun y hy => (hc1 y).mp hy⟩
  induction ops with
  | nil => exact fun s0 c h => ⟨s0, rfl, c, h⟩
  | cons op ops ih =>
      intro s0 c h
      obtain ⟨s1, c1, hstep, h1⟩ := modeStep_only op h
      obtain ⟨s, hs, hc⟩ := ih s1 c1 h1
      exact ⟨s, by simp [runModes, hstep, hs], hc⟩

/-! ### Claims C2 and C3: behaviour of the last-mode fields -/

/-- C2 counterexample: run enter(library), enter(command), leave(command)
from the initial state.  After leave(command) completes, the last of command
mode is still library while its fallback is image, so the last of the left
mode does not equal its fallback. -/
theorem leave_does_not_reset_left_last :
    (runModes
        [ModeOp.enter Mode.library, ModeOp.enter Mode.command, ModeOp.leave Mode.command]
        initModes).map
        (fun s => (s.last Mode.command, s.lastFallback Mode.command)) =
      some (Mode.library, Mode.image) ∧ Mode.library ≠ Mode.image := by
  decide

/-- C2 amended: `leave(M)` resets the last of the mode it returns to, not the
last of `M` itself: after `M.leave()`, the mode `X = M.last` (read before
leaving, assuming `M.last ≠ M`) has its own last set to `X.last_fallback`. -/
theorem leave_resets_reentered_last (m : Mode) (s s1 : ModesState)
    (h : leave m s = some s1) (hm : m ≠ s.last m) :
    s1.last (s.last m) = s.lastFallback (s.last m) := by
  unfold leave at h
  cases hc : current s with
  | none =>
      rw [enter, hc] at h
      simp at h
  | some c =>
      rw [enter_eq (s.last m) hc] at h
      simp at h
      have hlm : (enterBody s c (s.last m)).last m = s.last m :=
        enterBody_last_other s c (s.last m) hm
      rw [hlm] at h
      subst h
      show (resetLast (enterBody s c (s.last m)) (s.last m)).last (s.last m) = _
      unfold resetLast
      simp [Function.update_same, enterBody_lastFallback]

theorem leave_resets_reentered_last_witness :
    (leave Mode.command initModes).map
        (fun s1 => s1.last (initModes.last Mode.command)) =
      some (initModes.lastFallback (initModes.last Mode.command)) := by
  rcases hl : leave Mode.command initModes with _ | s1
  · have hs : (leave Mode.command initModes).isSome = true := by decide
    rw [hl] at hs
    simp at hs
  · simp only [Option.map_some']
    exact congrArg some
      (leave_resets_reentered_last Mode.command initModes s1 hl (by decide))

/-- For every mode other than command mode, the stored last mode is never
manipulate. -/
def MainLastInv (s : ModesState) : Prop :=
  ∀ m, m ≠ Mode.command → s.last m ≠ Mode.manipulate

/-- No fallback mode is manipulate. -/
def FallbackInv (s : ModesState) : Prop :=
  ∀ m, s.lastFallback m ≠ Mode.manipulate

theorem fallbackInv_congr {s t : ModesState} (heq : t.lastFallback = s.lastFallback)
    (hf : FallbackInv s) : FallbackInv t := by
  intro m
  rw [heq]
  exact hf m

theorem setLast_mainLastInv {s : ModesState} (a b : Mode) (h : MainLastInv s) :
    MainLastInv (setLast s a b) := by
  intro m hm
  by_cases ha : a = Mode.command
  · subst ha
    rw [setLast, if_pos rfl]
    by_cases hb : b ≠ Mode.command
    · rw [if_pos hb]
      show Function.update s.last Mode.command b m ≠ Mode.manipulate
      rw [Function.update_noteq hm]
      exact h m hm
    · rw [if_neg hb]
      exact h m hm
  · rw [setLast, if_neg ha]
    by_cases hb : b ≠ Mode.command ∧ b ≠ Mode.manipulate
    · rw [if_pos hb]
      show Function.update s.last a b m ≠ Mode.manipulate
      by_cases hma : m = a
      · subst hma
        rw [Function.update_same]
        exact hb.2
      · rw [Function.update_noteq hma]
        exact h m hm
    · rw [if_neg hb]
      exact h m hm

theorem resetLast_mainLastInv {s : ModesState} (a : Mode) (hf : FallbackInv s)
    (h : MainLastInv s) : MainLastInv (resetLast s a) := by
  intro m hm
  show Function.update s.last a (s.lastFallback a) m ≠ Mode.manipulate
  by_cases hma : m = a
  · subst hma
    rw [Function.update_same]
    exact hf m
  · rw [Function.update_noteq hma]
    exact h m hm

theorem enterBody_mainLastInv {s : ModesState} (c m : Mode) (h : MainLastInv s) :
    MainLastInv (enterBody s c m) := by
  intro x hx
  unfold enterBody
  split
  · exact h x hx
  · show (setLast { s with active := Function.update s.active c false } m c).last x ≠
      Mode.manipulate
    exact @setLast_mainLastInv { s with active := Function.update s.active c false } m c h x hx

theorem modeStep_lastInv {s s1 : ModesState} (op : ModeOp)
    (hstep : modeStep op s = some s1) (hf : FallbackInv s) (h : MainLastInv s) :
    MainLastInv s1 ∧ FallbackInv s1 := by
  have henter : ∀ m t, enter m s = some t → MainLastInv t ∧ FallbackInv t := by
    intro m t ht
    cases hc : current s with
    | none => rw [enter, hc] at ht; simp at ht
    | some c =>
        rw [enter_eq m hc] at ht
        simp at ht
        subst ht
        exact ⟨enterBody_mainLastInv c m h, fallbackInv_congr (enterBody_lastFallback s c m) hf⟩
  have hleave : ∀ m t, leave m s = some t → MainLastInv t ∧ FallbackInv t := by
    intro m t ht
    unfold leave at ht
    cases he : enter (s.last m) s with
    | none => rw [he] at ht; simp at ht
    | some t1 =>
        rw [he] at ht
        simp at ht
        subst ht
        obtain ⟨h1, hf1⟩ := henter (s.last m) t1 he
        exact ⟨resetLast_mainLastInv _ hf1 h1,
          fallbackInv_congr (resetLast_lastFallback t1 _) hf1⟩
  cases op with
  | enter m => exact henter m s1 hstep
  | leave m => exact hleave m s1 hstep
  | toggle m v =>
      cases v with
      | true => exact hleave m s1 hstep
      | false => exact henter m s1 hstep

/-- C3 counterexample: run enter(manipulate), enter(command) from the initial
state.  Command mode then stores manipulate as its last mode, so manipulate
does become a last target for command mode. -/
theorem command_last_becomes_manipulate :
    (runModes [ModeOp.enter Mode.manipulate, ModeOp.enter Mode.command] initModes).map
        (fun s => s.last Mode.command) = some Mode.manipulate := by
  decide

/-- C3 amended: for every mode other than command mode, and every reachable
sequence of enter/leave/toggle calls from the initial state, the last field
never becomes manipulate; command mode itself can store manipulate as last. -/
theorem mainmode_last_never_manipulate (ops : List ModeOp) (s : ModesState)
    (h : runModes ops initModes = some s) :
    ∀ m, m ≠ Mode.command → s.last m ≠ Mode.manipulate := by
  suffices hgen : ∀ ops (s0 s : ModesState), runModes ops s0 = some s →
      FallbackInv s0 → MainLastInv s0 → MainLastInv s ∧ FallbackInv s by
    refine (hgen ops initModes s h ?_ ?_).1
    · intro m
      cases m <;> decide
    · intro m hm
      cases m <;> decide
  intro ops
  induction ops with
  | nil =>
      intro s0 s h hf hm
      cases h
      exact ⟨hm, hf⟩
  | cons op ops ih =>
      intro s0 s h hf hm
      cases hs1 : modeStep op s0 with
      | none => rw [runModes, hs1] at h; simp at h
      | some s1 =>
          rw [runModes, hs1] at h
          simp at h
          obtain ⟨hm1, hf1⟩ := modeStep_lastInv op hs1 hf hm
          exact ih s1 s h hf1 hm1

theorem mainmode_last_never_manipulate_witness :
    (runModes [ModeOp.enter Mode.manipulate] initModes).map
        (fun s => decide (s.last Mode.image = Mode.manipulate)) = some false := by
  rcases hr : runModes [ModeOp.enter Mode.manipulate] initModes with _ | s
  · have hs : (runModes [ModeOp.enter Mode.manipulate] initModes).isSome = true := by decide
    rw [hr] at hs
    simp at hs
  · simp only [Option.map_some']
    exact congrArg some (decide_eq_false
      (mainmode_last_never_manipulate [ModeOp.enter Mode.manipulate] s hr Mode.image
        (by decide)))

/-! ## String utilities shared by the command runner and status embedding

Python strings are handled through their character lists.  Characters that
would clash with Lean source syntax are named constants. -/

def bslash : Char := Char.ofNat 92

def squoteChar : Char := Char.ofNat 39

def dquoteChar : Char := Char.ofNat 34

def lbrace : Char := Char.ofNat 123

def rbrace : Char := Char.ofNat 125

/-- ASCII whitespace recognised by Python `str.split()`/`str.strip()`
(space, tab, newline, carriage return, vertical tab, form feed). -/
def pyWs (c : Char) : Bool :=
  c == ' ' || c == '\t' || c == '\n' || c == '\r' || c == Char.ofNat 11 || c == Char.ofNat 12

/-- The `shlex.whitespace` characters: space, tab, carriage return, newline. -/
def shlexWs (c : Char) : Bool :=
  c == ' ' || c == '\t' || c == '\r' || c == '\n'

/-- `str.strip()` with no argument. -/
def pyStrip (s : String) : String :=
  ⟨((s.data.dropWhile pyWs).reverse.dropWhile pyWs).reverse⟩

def pySplitAux : List Char → List Char → List String
  | [], cur => if cur.isEmpty then [] else [⟨cur.reverse⟩]
  | c :: cs, cur =>
      if pyWs c then
        if cur.isEmpty then pySplitAux cs [] else ⟨cur.reverse⟩ :: pySplitAux cs []
      else pySplitAux cs (c :: cur)

/-- `str.split()` with no argument: split on whitespace runs, no empty
tokens. -/
def pySplit (l : List Char) : List String := pySplitAux l []

/-- Lexer states of `shlex` in POSIX mode with `whitespace_split=True`:
between tokens, inside a plain word, inside single or double quotes, and
after an escape character inside a word or inside double quotes. -/
inductive ShState where
  | space
  | word
  | squote
  | dquote
  | escWord
  | escDouble

/-- The `shlex` state machine (POSIX mode, `whitespace_split=True`, quote
characters single and double quote, escape character backslash, escaped
quotes double quote).  `none` models the `ValueError` raised on an unclosed
quotation or a trailing escape character. -/
def shlexAux : List Char → ShState → List Char → Option (List String)
  | [], ShState.space, _ => some []
  | [], ShState.word, cur => some [⟨cur.reverse⟩]
  | [], ShState.squote, _ => none
  | [], ShState.dquote, _ => none
  | [], ShState.escWord, _ => none
  | [], ShState.escDouble, _ => none
  | c :: cs, ShState.space, _ =>
      if shlexWs c then shlexAux cs ShState.space []
      else if c = squoteChar then shlexAux cs ShState.squote []
      else if c = dquoteChar then shlexAux cs ShState.dquote []
      else if c = bslash then shlexAux cs ShState.escWord []
      else shlexAux cs ShState.word [c]
  | c :: cs, ShState.word, cur =>
      if shlexWs c then (shlexAux cs ShState.space []).map (fun ts => String.mk cur.reverse :: ts)
      else if c = squoteChar then shlexAux cs ShState.squote cur
      else if c = dquoteChar then shlexAux cs ShState.dquote cur
      else if c = bslash then shlexAux cs ShState.escWord cur
      else shlexAux cs ShState.word (c :: cur)
  | c :: cs, ShState.squote, cur =>
      if c = squoteChar then shlexAux cs ShState.word cur
      else shlexAux cs ShState.squote (c :: cur)
  | c :: cs, ShState.dquote, cur =>
      if c = dquoteChar then shlexAux cs ShState.word cur
      else if c = bslash then shlexAux cs ShState.escDouble cur
      else shlexAux cs ShState.dquote (c :: cur)
  | c :: cs, ShState.escWord, cur => shlexAux cs ShState.word (c :: cur)
  | c :: cs, ShState.escDouble, cur =>
      if c = dquoteChar ∨ c = bslash then shlexAux cs ShState.dquote (c :: cur)
      else shlexAux cs ShState.dquote (c :: bslash :: cur)

/-- `shlex.split`. -/
def shlexSplit (s : String) : Option (List String) :=
  shlexAux s.data ShState.space []

/-- The count peeling loop of `_parse`: while the name starts with a digit,
move that digit onto the count. -/
def peelCount : List Char → List Char × List Char
  | [] => ([], [])
  | c :: cs =>
      if c.isDigit then
        let r := peelCount cs
        (c :: r.1, r.2)
      else ([], c :: cs)

/-- `_parse` from vimiv/commands/runners.py: strip, split with shlex, peel
the leading digit run of the first token as count, remainder is the command
name, remaining tokens are the arguments.  `none` models both the
`ValueError` from shlex on malformed quoting and the empty-token-list
case. -/
def _parse (text : String) : Option (String × String × List String) :=
  match shlexSplit (pyStrip text) with
  | none => none
  | some [] => none
  | some (first :: args) =>
      let p := peelCount first.data
      some (⟨p.1⟩, ⟨p.2⟩, args)

/-- `str.replace(old, new)` replacing every non-overlapping occurrence from
the left, via fuel bounded by the length of the string.  The `old` strings
used in this development are always non-empty, for which the fuel
suffices. -/
def pyReplaceAux (old new : List Char) : Nat → List Char → List Char
  | 0, s => s
  | _ + 1, [] => []
  | fuel + 1, c :: cs =>
      if old.isPrefixOf (c :: cs) then
        new ++ pyReplaceAux old new fuel ((c :: cs).drop old.length)
      else c :: pyReplaceAux old new fuel cs

def pyReplace (s old new : String) : String :=
  ⟨pyReplaceAux old.data new.data s.data.length s.data⟩

/-- Python substring containment `pat in text`. -/
def hasSub : List Char → List Char → Bool
  | pat, [] => pat.isEmpty
  | pat, c :: cs => pat.isPrefixOf (c :: cs) || hasSub pat cs

/-- `re.sub` with the negative lookbehind patterns used by
`expand_percent`: replace each occurrence of `pat` that is not immediately
preceded by a backslash in the original text; `prev` tracks the character
of the original text just before the scan position.  The replacement text
is inserted literally (the replacements used here contain no backslash
group references). -/
def subNotEscAux (pat repl : List Char) : Nat → Option Char → List Char → List Char
  | 0, _, s => s
  | _ + 1, _, [] => []
  | fuel + 1, prev, c :: cs =>
      if pat.isPrefixOf (c :: cs) ∧ prev ≠ some bslash then
        repl ++ subNotEscAux pat repl fuel pat.getLast? ((c :: cs).drop pat.length)
      else c :: subNotEscAux pat repl fuel (some c) cs

def subNotEsc (pat repl s : List Char) : List Char :=
  subNotEscAux pat repl s.length none s

/-- Characters `shlex.quote` treats as safe: ASCII word characters and the
punctuation at, percent, plus, equals, colon, comma, dot, slash, dash. -/
def safeChar (c : Char) : Bool :=
  c.isAlpha || c.isDigit || c == '_' || c == '@' || c == '%' || c == '+' || c == '=' ||
    c == ':' || c == ',' || c == '.' || c == '/' || c == '-'

/-- The single-quote escaping of `shlex.quote`: each single quote becomes
quote, double quote, quote, double quote, quote. -/
def quoteEsc : List Char → List Char
  | [] => []
  | c :: cs =>
      if c = squoteChar then
        squoteChar :: dquoteChar :: squoteChar :: dquoteChar :: squoteChar :: quoteEsc cs
      else c :: quoteEsc cs

/-- `shlex.quote`. -/
def shlexQuote (s : String) : String :=
  if s.data.isEmpty then ⟨[squoteChar, squoteChar]⟩
  else if s.data.all safeChar then s
  else ⟨squoteChar :: (quoteEsc s.data ++ [squoteChar])⟩

/-- `expand_percent` from vimiv/commands/runners.py: replace unescaped `%m`
by the space-joined marked paths, then unescaped `%` by the shell-quoted
current path; each substitution runs only if the plain substring occurs in
the text at that point.  The marked paths and the current path are external
collaborator state and are parameters. -/
def expand_percent (marked : List String) (currentPath : String) (text : String) : String :=
  let t0 := text.data
  let t1 :=
    if hasSub ['%', 'm'] t0 then
      subNotEsc ['%', 'm'] (String.intercalate " " marked).data t0
    else t0
  let t2 :=
    if hasSub ['%'] t1 then subNotEsc ['%'] (shlexQuote currentPath).data t1
    else t1
  ⟨t2⟩

/-- The first whitespace-delimited token, `text.split()[0]`. -/
def firstToken (text : String) : Option String :=
  (pySplit text.data).head?

/-- `alias` from vimiv/commands/runners.py: the alias table for the mode is
external state and is a parameter.  If the first token of the text is a key
of the table, the whole text goes through `str.replace` with its expansion;
otherwise the text is returned unchanged.  `none` models the `IndexError`
on text without any token. -/
def aliasSub (table : List (String × String)) (text : String) : Option String :=
  match pySplit text.data with
  | [] => none
  | c :: _ =>
      match table.lookup c with
      | some e => some (pyReplace text c e)
      | none => some text

/-! ## Command runner (vimiv/commands/runners.py) -/

/-- Outcome of invoking a resolved command with the given arguments and
count: normal return, or one of the exceptions caught by
`_run_command`. -/
inductive CmdOutcome where
  | ok
  | argumentError
  | commandError
  | commandWarning
deriving DecidableEq

/-- A registered command: its `store` flag and its invocation behaviour as a
function of arguments and count. -/
structure Cmd where
  store : Bool
  run : List String → String → CmdOutcome

/-- The `LastCommand` named tuple. -/
structure LastCommand where
  count : String
  command : String
  arguments : List String
deriving DecidableEq

/-- Observable outcome of one `_run_command` call: the `_last_command`
dictionary afterwards and whether `api.status.update()` was reached. -/
structure RunResult where
  lastCommand : Mode → Option LastCommand
  statusUpdated : Bool

/-- `_run_command`: resolve the command (a `CommandNotFound` is logged and
swallowed); if the command stores, overwrite the last-command slot for the
mode before invoking; invoke; only a normal return reaches
`api.status.update()`, the caught exceptions skip it. -/
def _run_command (reg : Mode → String → Option Cmd) (count cmdname : String)
    (args : List String) (mode : Mode) (last : Mode → Option LastCommand) : RunResult :=
  match reg mode cmdname with
  | none => { lastCommand := last, statusUpdated := false }
  | some cmd =>
      let last1 :=
        if cmd.store then Function.update last mode (some ⟨count, cmdname, args⟩) else last
      match cmd.run args count with
      | CmdOutcome.ok => { lastCommand := last1, statusUpdated := true }
      | CmdOutcome.argumentError => { lastCommand := last1, statusUpdated := false }
      | CmdOutcome.commandError => { lastCommand := last1, statusUpdated := false }
      | CmdOutcome.commandWarning => { lastCommand := last1, statusUpdated := false }

/-- `command`: parse the text, abort on a parse failure (logged, nothing
else happens), otherwise run `_run_command`. -/
def command (reg : Mode → String → Option Cmd) (text : String) (mode : Mode)
    (last : Mode → Option LastCommand) : RunResult :=
  match _parse text with
  | none => { lastCommand := last, statusUpdated := false }
  | some (count, cmdname, args) => _run_command reg count cmdname args mode last

/-- A stored command whose invocation always raises `CommandError`. -/
def fooErrCmd : Cmd := { store := true, run := fun _ _ => CmdOutcome.commandError }

/-- Registry containing only the command `foo`, which raises
`CommandError`. -/
def regFooError : Mode → String → Option Cmd :=
  fun _ n => if n = "foo" then some fooErrCmd else none

/-- C4 counterexample: running the stored command `foo`, whose invocation
raises `CommandError`, overwrites the previously empty LastCommand slot of
image mode anyway, because `_run_command` stores before invoking.  The
claim says the slot is unchanged when the command raises `CommandError`. -/
theorem lastcommand_overwritten_despite_error :
    (_run_command regFooError "" "foo" [] Mode.image (fun _ => none)).lastCommand Mode.image =
      some ⟨"", "foo", []⟩ ∧
    regFooError Mode.image "foo" = some fooErrCmd ∧
    fooErrCmd.run [] "" = CmdOutcome.commandError :=
  ⟨by decide, rfl, rfl⟩

/-- Whether the resolved command exists and has its `store` flag set. -/
def resolvedStore (reg : Mode → String → Option Cmd) (mode : Mode) (name : String) : Bool :=
  match reg mode name with
  | some cmd => cmd.store
  | none => false

/-- C4 amended: the LastCommand slot for the mode is overwritten with
(count, name, arguments) if and only if command resolution succeeds and the
resolved command has its store flag set; the outcome of the invocation
(normal return, ArgumentError, CommandError or CommandWarning) plays no
role, and other modes are never touched. -/
theorem lastcommand_update_rule (reg : Mode → String → Option Cmd) (count name : String)
    (args : List String) (mode : Mode) (last : Mode → Option LastCommand) :
    (_run_command reg count name args mode last).lastCommand =
      if resolvedStore reg mode name then
        Function.update last mode (some ⟨count, name, args⟩)
      else last := by
  unfold _run_command resolvedStore
  cases hr : reg mode name with
  | none => simp
  | some cmd =>
      cases hs : cmd.store <;> cases ho : cmd.run args count <;> simp [hs, ho]

/-- C5 counterexample: the status broadcast is not triggered when command
resolution fails with `CommandNotFound`, nor when the invocation raises
`CommandError`; the claim says it is triggered in both cases. -/
theorem status_not_updated_on_failure :
    (_run_command (fun _ _ => none) "" "nosuch" [] Mode.image (fun _ => none)).statusUpdated =
      false ∧
    (_run_command regFooError "" "foo" [] Mode.image (fun _ => none)).statusUpdated = false :=
  ⟨rfl, rfl⟩

/-- C5 amended: for an internal command run, the status-update broadcast is
triggered if and only if the text parses, the command resolves, and the
invocation returns normally; any parse failure, `CommandNotFound`,
`ArgumentError`, `CommandError` or `CommandWarning` skips the broadcast. -/
theorem status_updated_iff_success (reg : Mode → String → Option Cmd) (text : String)
    (mode : Mode) (last : Mode → Option LastCommand) :
    (command reg text mode last).statusUpdated = true ↔
      ∃ count name args cmd, _parse text = some (count, name, args) ∧
        reg mode name = some cmd ∧ cmd.run args count = CmdOutcome.ok := by
  unfold command
  cases hp : _parse text with
  | none => simp [hp]
  | some trip =>
      obtain ⟨count, name, args⟩ := trip
      unfold _run_command
      cases hr : reg mode name with
      | none => simp [hp, hr]
      | some cmd =>
          cases ho : cmd.run args count with
          | ok =>
              simp [hp, hr, ho]
              exact ⟨count, name, args, ⟨rfl, rfl, rfl⟩, cmd, hr, ho⟩
          | argumentError => simp [hp, hr, ho]
          | commandError => simp [hp, hr, ho]
          | commandWarning => simp [hp, hr, ho]

/-- C6: count parsing.  The text `3goto` parses to count 3, name goto and no
arguments; `goto 3` parses to an empty count, name goto and argument list
containing 3; in general the count peeling loop takes exactly the leading
digit run of the first token as count, the rest of that token being the
name. -/
theorem count_parsing :
    _parse "3goto" = some ("3", "goto", []) ∧
    _parse "goto 3" = some ("", "goto", ["3"]) ∧
    ∀ l : List Char, peelCount l = (l.takeWhile Char.isDigit, l.dropWhile Char.isDigit) := by
  refine ⟨by decide, by decide, ?_⟩
  intro l
  induction l with
  | nil => rfl
  | cons c cs ih =>
      by_cases hd : c.isDigit
      · simp [peelCount, hd, ih, List.takeWhile_cons, List.dropWhile_cons]
      · simp [peelCount, hd, List.takeWhile_cons, List.dropWhile_cons]

/-- C7: wildcard expansion with marked paths /a.jpg and /b.jpg and current
path /c.jpg: `open %m` expands to the marked paths, `open %` to the current
path, and the escaped wildcard is left unexpanded with its backslash
intact. -/
theorem wildcard_expansion :
    expand_percent ["/a.jpg", "/b.jpg"] "/c.jpg" "open %m" = "open /a.jpg /b.jpg" ∧
    expand_percent ["/a.jpg", "/b.jpg"] "/c.jpg" "open %" = "open /c.jpg" ∧
    expand_percent ["/a.jpg", "/b.jpg"] "/c.jpg" "open \\%m" = "open \\%m" := by
  refine ⟨by decide, by decide, by decide⟩

/-- C8 counterexample: with the alias table mapping a to open, the text
`a a` becomes `open open`: the second occurrence of the token is replaced
as well, while the claim requires `open a`. -/
theorem alias_not_only_first_token :
    aliasSub [("a", "open")] "a a" = some "open open" ∧
    ("open open" : String) ≠ "open a" := by
  refine ⟨by decide, by decide⟩

/-- C8 amended: if the first whitespace-delimited token of the text is a
registered alias, the result is the text with every non-overlapping
occurrence of that token string replaced by the expansion, Python
`str.replace` semantics, including occurrences inside later tokens; if the
first token matches no alias the text is returned unchanged. -/
theorem alias_replaces_every_occurrence (table : List (String × String)) (text c : String)
    (h : firstToken text = some c) :
    aliasSub table text =
      some ((table.lookup c).elim text (fun e => pyReplace text c e)) := by
  unfold firstToken at h
  unfold aliasSub
  cases hs : pySplit text.data with
  | nil =>
      rw [hs] at h
      simp at h
  | cons c0 rest =>
      rw [hs] at h
      simp at h
      subst h
      cases hl : table.lookup c0 <;> simp [hl]

theorem alias_replaces_every_occurrence_witness :
    aliasSub [("a", "open")] "a a" =
      some ((([("a", "open")] : List (String × String)).lookup "a").elim "a a"
        (fun e => pyReplace "a a" "a" e)) :=
  alias_replaces_every_occurrence [("a", "open")] "a a" "a" (by decide)

/-! ## Status module registry (vimiv/api/status.py) -/

/-- Helper for the non-greedy `braces` regex: split the text at the first
closing brace, failing at the end of the string or at a newline (the regex
dot does not cross lines). -/
def findCloseBrace : List Char → Option (List Char × List Char)
  | [] => none
  | c :: cs =>
      if c = rbrace then some ([], cs)
      else if c = '\n' then none
      else (findCloseBrace cs).map (fun p => (c :: p.1, p.2))

/-- `re.findall` for the module expression: each match runs from an opening
brace to the first closing brace after it, scanning resumes after the
match.  Fuel bounded by the length of the text. -/
def findTokensAux : Nat → List Char → List String
  | 0, _ => []
  | _ + 1, [] => []
  | fuel + 1, c :: cs =>
      if c = lbrace then
        match findCloseBrace cs with
        | some (inside, after) =>
            String.mk (lbrace :: (inside ++ [rbrace])) :: findTokensAux fuel after
        | none => findTokensAux fuel cs
      else findTokensAux fuel cs

def findTokens (l : List Char) : List String := findTokensAux l.length l

/-- One iteration of the loop in `evaluate`: known module names are replaced
by their produced text, unknown ones by the empty string.  The accumulator
carries the text, the set of module names already logged (the `lru_cache`
of `_log_unknown_module`) and the warnings emitted so far in this call. -/
def evalStep (modules : List (String × String)) (acc : String × List String × List String)
    (name : String) : String × List String × List String :=
  match modules.lookup name with
  | some v => (pyReplace acc.1 name v, acc.2.1, acc.2.2)
  | none =>
      let t := pyReplace acc.1 name ""
      if name ∈ acc.2.1 then (t, acc.2.1, acc.2.2)
      else (t, name :: acc.2.1, acc.2.2 ++ [name])

/-- `evaluate`: the module table maps module names to the text their
producer returns at this evaluation.  Returns the updated text, the updated
log cache and the warnings emitted by this call. -/
def evalStatus (modules : List (String × String)) (logged : List String) (text : String) :
    String × List String × List String :=
  (findTokens text.data).foldl (evalStep modules) (text, logged, [])

/-- A sequence of `evaluate` calls threading the warning cache; returns the
final cache and all warnings emitted over the sequence. -/
def evalSeq (modules : List (String × String)) :
    List String → List String → List String × List String
  | [], logged => (logged, [])
  | t :: ts, logged =>
      let r := evalStatus modules logged t
      let rest := evalSeq modules ts r.2.1
      (rest.1, r.2.2 ++ rest.2)

/-- The registry of the C9 scenario: one module named count producing the
text 3. -/
def demoModules : List (String × String) := [("{count}", "3")]

theorem evalFold_unknown (M : List (String × String)) (B : String)
    (hB : M.lookup B = none) :
    ∀ (names : List String) (t : String) (lg w : List String),
      (B ∈ (names.foldl (evalStep M) (t, lg, w)).2.1 ↔ (B ∈ lg ∨ B ∈ names)) ∧
      (names.foldl (evalStep M) (t, lg, w)).2.2.count B =
        w.count B + (if B ∉ lg ∧ B ∈ names then 1 else 0) := by
  intro names
  induction names with
  | nil =>
      intro t lg w
      simp
  | cons n ns ih =>
      intro t lg w
      rw [List.foldl_cons]
      cases hn : M.lookup n with
      | some v =>
          have hBn : B ≠ n := by
            intro he
            rw [he, hn] at hB
            exact Option.noConfusion hB
          have hstep : evalStep M (t, lg, w) n = (pyReplace t n v, lg, w) := by
            simp [evalStep, hn]
          rw [hstep]
          obtain ⟨ih1, ih2⟩ := ih (pyReplace t n v) lg w
          refine ⟨?_, ?_⟩
          · rw [ih1]
            simp [List.mem_cons, hBn]
          · rw [ih2]
            simp [List.mem_cons, hBn]
      | none =>
          by_cases hmem : n ∈ lg
          · have hstep : evalStep M (t, lg, w) n = (pyReplace t n "", lg, w) := by
              simp [evalStep, hn, hmem]
            rw [hstep]
            obtain ⟨ih1, ih2⟩ := ih (pyReplace t n "") lg w
            refine ⟨?_, ?_⟩
            · rw [ih1]
              constructor
              · rintro (h | h)
                · exact Or.inl h
                · exact Or.inr (List.mem_cons_of_mem n h)
              · rintro (h | h)
                · exact Or.inl h
                · rcases List.mem_cons.mp h with rfl | h2
                  · exact Or.inl hmem
                  · exact Or.inr h2
            · rw [ih2]
              have hiff : (B ∉ lg ∧ B ∈ ns) ↔ (B ∉ lg ∧ B ∈ n :: ns) := by
                constructor
                · rintro ⟨h1, h2⟩
                  exact ⟨h1, List.mem_cons_of_mem n h2⟩
                · rintro ⟨h1, h2⟩
                  rcases List.mem_cons.mp h2 with rfl | h3
                  · exact absurd hmem h1
                  · exact ⟨h1, h3⟩
              rw [if_congr hiff rfl rfl]
          · have hstep : evalStep M (t, lg, w) n = (pyReplace t n "", n :: lg, w ++ [n]) := by
              simp [evalStep, hn, hmem]
            rw [hstep]
            obtain ⟨ih1, ih2⟩ := ih (pyReplace t n "") (n :: lg) (w ++ [n])
            refine ⟨?_, ?_⟩
            · rw [ih1]
              simp only [List.mem_cons]
              tauto
            · rw [ih2]
              by_cases hBn : B = n
              · subst hBn
                simp [List.count_append, hmem, List.mem_cons]
              · have hc1 : List.count B (w ++ [n]) = List.count B w := by
                  simp [List.count_append, List.count_cons, List.count_nil,
                    beq_iff_eq, Ne.symm hBn]
                have hcond1 : (B ∉ n :: lg ∧ B ∈ ns) ↔ (B ∉ lg ∧ B ∈ ns) := by
                  simp [List.mem_cons, hBn]
                have hcond2 : (B ∉ lg ∧ B ∈ n :: ns) ↔ (B ∉ lg ∧ B ∈ ns) := by
                  simp [List.mem_cons, hBn]
                rw [hc1, if_congr hcond1 rfl rfl, if_congr hcond2 rfl rfl]

theorem evalSeq_count (M : List (String × String)) (B : String)
    (hB : M.lookup B = none) :
    ∀ (texts : List String) (lg : List String),
      (evalSeq M texts lg).2.count B =
        if B ∈ lg then 0
        else if ∃ t ∈ texts, B ∈ findTokens t.data then 1 else 0 := by
  intro texts
  induction texts with
  | nil =>
      intro lg
      simp [evalSeq]
  | cons t ts ih =>
      intro lg
      obtain ⟨h1, h2⟩ := evalFold_unknown M B hB (findTokens t.data) t lg []
      rw [show evalSeq M (t :: ts) lg =
          ((evalSeq M ts (evalStatus M lg t).2.1).1,
            (evalStatus M lg t).2.2 ++ (evalSeq M ts (evalStatus M lg t).2.1).2) from rfl]
      show ((evalStatus M lg t).2.2 ++ (evalSeq M ts (evalStatus M lg t).2.1).2).count B = _
      rw [List.count_append]
      have h2a : (evalStatus M lg t).2.2.count B =
          if B ∉ lg ∧ B ∈ findTokens t.data then 1 else 0 := by
        simpa using h2
      rw [h2a, ih ((evalStatus M lg t).2.1)]
      by_cases hBlg : B ∈ lg
      · have hm : B ∈ (evalStatus M lg t).2.1 := h1.mpr (Or.inl hBlg)
        simp [hBlg, hm]
      · by_cases hBt : B ∈ findTokens t.data
        · have hm : B ∈ (evalStatus M lg t).2.1 := h1.mpr (Or.inr hBt)
          have hex : ∃ x ∈ t :: ts, B ∈ findTokens x.data :=
            ⟨t, List.mem_cons_self t ts, hBt⟩
          simp [hBlg, hBt, hm, hex]
        · have hm : B ∉ (evalStatus M lg t).2.1 := fun hc => (h1.mp hc).elim hBlg hBt
          have hex : (∃ x ∈ t :: ts, B ∈ findTokens x.data) ↔
              ∃ x ∈ ts, B ∈ findTokens x.data := by
            constructor
            · rintro ⟨x, hx, hPx⟩
              rcases List.mem_cons.mp hx with rfl | hx2
              · exact absurd hPx hBt
              · exact ⟨x, hx2, hPx⟩
            · rintro ⟨x, hx, hPx⟩
              exact ⟨x, List.mem_cons_of_mem t hx, hPx⟩
          rw [if_congr hex rfl rfl]
          simp [hBlg, hBt, hm]

/-- C9: status evaluation.  With the module count producing the text 3,
evaluating `Items: {count}` yields `Items: 3`; evaluating a text containing
the unregistered token `{bogus}` substitutes the empty string for it, both
on the first evaluation and on a later one whose warning is already cached;
and across any sequence of evaluate calls starting with an empty warning
cache, the unknown-token warning for `{bogus}` is emitted exactly once when
some evaluated text contains that token, and never otherwise. -/
theorem status_evaluation :
    (evalStatus demoModules [] "Items: {count}").1 = "Items: 3" ∧
    (evalStatus demoModules [] "Items: {bogus}").1 = "Items: " ∧
    (evalStatus demoModules ["{bogus}"] "Items: {bogus}").1 = "Items: " ∧
    ∀ texts : List String,
      (evalSeq demoModules texts []).2.count "{bogus}" =
        if ∃ t ∈ texts, "{bogus}" ∈ findTokens t.data then 1 else 0 := by
  refine ⟨by decide, by decide, by decide, ?_⟩
  intro texts
  have h := evalSeq_count demoModules "{bogus}" (by decide) texts []
  simpa using h

/-! ## Manipulator (vimiv/imutils/immanipulate.py, vimiv/utils/clamp) -/

/-- `clamp` from vimiv/utils: raise to the minimum, then lower to the
maximum, each bound optional. -/
def clamp (value : Int) (minimum maximum : Option Int) : Int :=
  let v1 :=
    match minimum with
    | some m => max value m
    | none => value
  match maximum with
  | some m => min v1 m
  | none => v1

/-- The two keys of the `manipulations` ordered dictionary. -/
inductive ManipName where
  | brightness
  | contrast
deriving DecidableEq

/-- Manipulator state relevant to the stored values: the `manipulations`
dictionary and `_current`.  Thread ids, pixmap data and the worker pool
carry no stored manipulation values and are omitted. -/
structure ManipState where
  manipulations : ManipName → Int
  currentManip : ManipName

/-- `Manipulator._update_manipulation`: focus the manipulation, and when a
value is given clamp it to the inclusive range -127 to 127 and store it. -/
def _update_manipulation (s : ManipState) (name : ManipName) (value : Option Int) :
    ManipState :=
  let s1 : ManipState := { s with currentManip := name }
  match value with
  | none => s1
  | some v =>
      let v1 := clamp v (some (-127)) (some 127)
      { s1 with manipulations := Function.update s1.manipulations name v1 }

/-- The five manipulation commands of the claim, with the integer inputs
they can receive. -/
inductive ManipOp where
  | brightness (value : Int) (count : Option Int)
  | contrast (value : Int) (count : Option Int)
  | increase (value : Int) (count : Int)
  | decrease (value : Int) (count : Int)
  | set (value : Int) (count : Option Int)

/-- One manipulation command.  For brightness and contrast, a given count is
converted through `ManipulateLevel`; that class lives outside the embedded
sources, so its validation is an arbitrary predicate parameter
`levelValid`: an invalid count raises `ValueError`, re-raised as
`CommandError`, and leaves the state unchanged, a valid one is passed on.
The value argument is whatever integer the external argument binder
produced.  increase and decrease add or subtract value times count from the
current manipulation, set uses count over value; all three update through
`_update_manipulation`. -/
def manipStep (levelValid : Int → Bool) : ManipOp → ManipState → ManipState
  | ManipOp.brightness value count, s =>
      match count with
      | some c =>
          if levelValid c then _update_manipulation s ManipName.brightness (some c) else s
      | none => _update_manipulation s ManipName.brightness (some value)
  | ManipOp.contrast value count, s =>
      match count with
      | some c =>
          if levelValid c then _update_manipulation s ManipName.contrast (some c) else s
      | none => _update_manipulation s ManipName.contrast (some value)
  | ManipOp.increase value count, s =>
      _update_manipulation s s.currentManip
        (some (s.manipulations s.currentManip + value * count))
  | ManipOp.decrease value count, s =>
      _update_manipulation s s.currentManip
        (some (s.manipulations s.currentManip - value * count))
  | ManipOp.set value count, s =>
      _update_manipulation s s.currentManip (some (count.getD value))

/-- `Manipulator.__init__`: brightness and contrast both 0, current
manipulation brightness. -/
def manipInit : ManipState :=
  { manipulations := fun _ => 0, currentManip := ManipName.brightness }

def runManip (levelValid : Int → Bool) (ops : List ManipOp) : ManipState :=
  ops.foldl (fun s op => manipStep levelValid op s) manipInit

/-- All stored manipulation values lie in the inclusive range -127 to
127. -/
def ManipInRange (s : ManipState) : Prop :=
  ∀ n, -127 ≤ s.manipulations n ∧ s.manipulations n ≤ 127

theorem clamp_range (v : Int) : -127 ≤ clamp v (some (-127)) (some 127) ∧
    clamp v (some (-127)) (some 127) ≤ 127 := by
  unfold clamp
  constructor
  · exact le_min (le_max_right v (-127)) (by omega)
  · exact min_le_right _ _

theorem update_manipulation_range {s : ManipState} (name : ManipName) (v : Option Int)
    (h : ManipInRange s) : ManipInRange (_update_manipulation s name v) := by
  cases v with
  | none => exact h
  | some v =>
      intro n
      show -127 ≤ Function.update s.manipulations name (clamp v (some (-127)) (some 127)) n ∧
        Function.update s.manipulations name (clamp v (some (-127)) (some 127)) n ≤ 127
      by_cases hn : n = name
      · subst hn
        rw [Function.update_same]
        exact clamp_range v
      · rw [Function.update_noteq hn]
        exact h n

theorem manipStep_range (levelValid : Int → Bool) (op : ManipOp) {s : ManipState}
    (h : ManipInRange s) : ManipInRange (manipStep levelValid op s) := by
  cases op with
  | brightness value count =>
      cases count with
      | none =>
          show ManipInRange (_update_manipulation s ManipName.brightness (some value))
          exact update_manipulation_range _ _ h
      | some c =>
          show ManipInRange
            (if levelValid c then _update_manipulation s ManipName.brightness (some c) else s)
          by_cases hv : levelValid c
          · rw [if_pos hv]
            exact update_manipulation_range _ _ h
          · rw [if_neg hv]
            exact h
  | contrast value count =>
      cases count with
      | none =>
          show ManipInRange (_update_manipulation s ManipName.contrast (some value))
          exact update_manipulation_range _ _ h
      | some c =>
          show ManipInRange
            (if levelValid c then _update_manipulation s ManipName.contrast (some c) else s)
          by_cases hv : levelValid c
          · rw [if_pos hv]
            exact update_manipulation_range _ _ h
          · rw [if_neg hv]
            exact h
  | increase value count =>
      show ManipInRange (_update_manipulation s s.currentManip
        (some (s.manipulations s.currentManip + value * count)))
      exact update_manipulation_range _ _ h
  | decrease value count =>
      show ManipInRange (_update_manipulation s s.currentManip
        (some (s.manipulations s.currentManip - value * count)))
      exact update_manipulation_range _ _ h
  | set value count =>
      show ManipInRange (_update_manipulation s s.currentManip (some (count.getD value)))
      exact update_manipulation_range _ _ h

/-- C10: manipulation range invariant.  For every validation behaviour of
the external `ManipulateLevel` conversion, every sequence of brightness,
contrast, increase, decrease and set operations with arbitrary integer
values and counts keeps each stored manipulation value in the inclusive
range -127 to 127; and an out-of-range set value is clamped to the bound,
not rejected. -/
theorem manipulation_range (levelValid : Int → Bool) (ops : List ManipOp) :
    ManipInRange (runManip levelValid ops) ∧
    (runManip levelValid [ManipOp.set 300 none]).manipulations ManipName.brightness = 127 := by
  constructor
  · suffices hgen : ∀ (ops : List ManipOp) (s : ManipState), ManipInRange s →
        ManipInRange (ops.foldl (fun s op => manipStep levelValid op s) s) by
      refine hgen ops manipInit ?_
      intro n
      exact ⟨by norm_num [manipInit], by norm_num [manipInit]⟩
    intro ops
    induction ops with
    | nil => exact fun s h => h
    | cons op ops ih =>
        intro s h
        exact ih _ (manipStep_range levelValid op h)
  · rfl
